import Mathlib

/-!
Verification of the fuzzy-probability calculator (fuzzy_calculator.py, utils.py).

The embedding uses exact rational arithmetic (`ℚ`) for the floating-point
values of the source.  Fallible operations (numpy shape errors, Python
`IndexError`) are modelled with `Option` / an explicit result type.
-/

namespace Fuzzy

/-- Absolute value computed the way the floating-point routines do. -/
def pyAbs (x : ℚ) : ℚ := if x < 0 then -x else x

/-- Model of `np.isclose` with its default tolerances
(`atol = 1e-8`, `rtol = 1e-5`): `|a - b| <= atol + rtol * |b|`. -/
def isClose (a b : ℚ) : Bool :=
  decide (pyAbs (a - b) ≤ 1 / 100000000 + 1 / 100000 * pyAbs b)

/-- `utils.universe_diverse`: all elements pairwise distinct
(`len(universe) == len(np.unique(universe))`). -/
def universe_diverse (u : List ℚ) : Bool :=
  decide (u.dedup.length = u.length)

/-- `utils.probabilities_valid`: every value in `[0,1]` and the sum not
approximately zero. -/
def probabilities_valid (p : List ℚ) : Bool :=
  (p.all fun x => decide (0 ≤ x)) && (p.all fun x => decide (x ≤ 1))
    && !(isClose p.sum 0)

/-- `utils.probabilities_normalized`: the sum is approximately 1. -/
def probabilities_normalized (p : List ℚ) : Bool :=
  isClose p.sum 1

/-- `utils.normalize_probabilities`: divide every element by the sum. -/
def normalize_probabilities (p : List ℚ) : List ℚ :=
  p.map fun x => x / p.sum

/-- The engine state of `FuzzyProbabilitiesCalculator`: the universe, the
stored distribution and the registered-event collection.  (The source's
field `_universe` is called `univ` here because `universe` is a Lean
keyword.) -/
structure FuzzyProbabilitiesCalculator where
  univ : List ℚ
  probabilities : List ℚ
  events : List (List ℚ)
deriving DecidableEq, Repr

/-- Construction-time failures of `FuzzyProbabilitiesCalculator.__init__`
(the source raises `ValueError` with distinct messages; the spec names them
`InvalidUniverse`, `InvalidDistribution`, `UnnormalizedDistribution`). -/
inductive InitError where
  | invalidUniverse
  | invalidDistribution
  | unnormalizedDistribution
deriving DecidableEq, Repr

/-- Outcome of construction. -/
inductive InitResult where
  | ok (c : FuzzyProbabilitiesCalculator)
  | err (e : InitError)
deriving DecidableEq, Repr

/-- `FuzzyProbabilitiesCalculator.__init__`: validate the universe and the
distribution, normalize the distribution on demand, start with no events. -/
def init (u p : List ℚ) (normalize : Bool) : InitResult :=
  if !universe_diverse u then .err .invalidUniverse
  else if !probabilities_valid p then .err .invalidDistribution
  else if !probabilities_normalized p then
    if !normalize then .err .unnormalizedDistribution
    else .ok ⟨u, normalize_probabilities p, []⟩
  else .ok ⟨u, p, []⟩

/-- `_normalized_event`: right-pad with zeros when the event is shorter than
the universe, truncate (`event[:size_diff]` with negative `size_diff`, i.e.
drop the trailing elements) when longer, otherwise return it unchanged. -/
def normalized_event (c : FuzzyProbabilitiesCalculator) (event : List ℚ) : List ℚ :=
  let n := c.univ.length
  if event.length < n then event ++ List.replicate (n - event.length) 0
  else if n < event.length then event.take n
  else event

/-- `add_event`: append the length-normalized membership vector and return
its index (the previous event count). -/
def add_event (c : FuzzyProbabilitiesCalculator) (membership : List ℚ) :
    FuzzyProbabilitiesCalculator × Nat :=
  let c' : FuzzyProbabilitiesCalculator :=
    { c with events := c.events ++ [normalized_event c membership] }
  (c', c'.events.length - 1)

/-- Dot product of two equally long vectors, as `np.dot` computes it
(`np.dot` raises on a length mismatch; `probability` models that with
`Option`). -/
def dotList (a b : List ℚ) : ℚ :=
  (List.zipWith (fun x y => x * y) a b).sum

/-- `probability`: the source computes the length-normalized event but then
dot-multiplies the RAW argument against the stored distribution
(`np.dot(event, self._probabilities)`), so a length mismatch is a numpy
error, modelled as `none`. -/
def probability (c : FuzzyProbabilitiesCalculator) (event : List ℚ) : Option ℚ :=
  let _normalized := normalized_event c event
  if event.length = c.probabilities.length then
    some (dotList event c.probabilities)
  else none

/-- `fuzz.fuzzy_not`: the pointwise fuzzy complement `1 - membership[i]`
(this is exactly what the external library computes). -/
def fuzzy_not (m : List ℚ) : List ℚ :=
  m.map fun x => 1 - x

/-- `bernoulli`: binomial-trial mass built from the probability of the
length-normalized event and of its fuzzy complement. -/
def bernoulli (c : FuzzyProbabilitiesCalculator) (event : List ℚ)
    (success failure : Nat) : Option ℚ :=
  let normalized := normalized_event c event
  match probability c normalized with
  | none => none
  | some success_prob =>
    match probability c (fuzzy_not normalized) with
    | none => none
    | some failure_prob =>
      some ((Nat.choose (success + failure) success : ℚ)
        * success_prob ^ success * failure_prob ^ failure)

/-- Model of `np.unique`: the distinct values of the array, sorted
ascending. -/
def npUnique (l : List ℚ) : List ℚ :=
  List.insertionSort (· ≤ ·) l.dedup

/-- Model of `np.trim_zeros` with its default mode: remove the leading and
the trailing zeros (zeros in the interior stay). -/
def trimZeros (l : List ℚ) : List ℚ :=
  (((l.dropWhile fun x => decide (x = 0)).reverse.dropWhile
    fun x => decide (x = 0)).reverse)

/-- The loop body of `fuzzy_probability`: `np.sum(self._probabilities[indices])`
for `indices, = np.nonzero(normalized >= a)` — the distribution mass at the
universe indices whose membership is at least `a` (on the index-aligned
states of the data model). -/
def cutProb (d m : List ℚ) (a : ℚ) : ℚ :=
  ((((List.range m.length).filter fun i => decide (a ≤ m.getD i 0)).map
    fun i => d.getD i 0).sum)

/-- `fuzzy_probability`: alpha levels `np.trim_zeros(np.unique(normalized))`,
paired with the probability mass of each alpha cut; returns
`(probabilities, alphas)` in that order, as the source does. -/
def fuzzy_probability (c : FuzzyProbabilitiesCalculator) (event : List ℚ) :
    List ℚ × List ℚ :=
  let normalized := normalized_event c event
  let alphas := trimZeros (npUnique normalized)
  (alphas.map (cutProb c.probabilities normalized), alphas)

/-- Call-time failures of the combination operations. -/
inductive CalcError where
  | emptyIndexList
  | indexError
deriving DecidableEq, Repr

/-- Outcome of a combination operation. -/
inductive CalcResult (α : Type) where
  | ok (v : α)
  | err (e : CalcError)
deriving DecidableEq, Repr

/-- Python sequence indexing `l[i]` for `int` indices: a negative index is
end-relative (`i + len`), and an index that is still out of range after that
adjustment raises `IndexError` (modelled as `none`). -/
def pyGet {α : Type} (l : List α) (i : Int) : Option α :=
  let j : Int := if i < 0 then i + l.length else i
  if 0 ≤ j then l[j.toNat]? else none

/-- The list comprehension of `events_sum` / `events_intersection`: look up
each (already filter-passed) index in the event collection, propagating the
first `IndexError`. -/
def selectEvents (events : List (List ℚ)) : List Int → CalcResult (List (List ℚ))
  | [] => .ok []
  | i :: rest =>
    match pyGet events i with
    | none => .err .indexError
    | some e =>
      match selectEvents events rest with
      | .ok vs => .ok (e :: vs)
      | .err er => .err er

/-- Modelled from the spec: the external fuzzy-algebra library's `fuzzy_add`
combinator (`skfuzzy.fuzzy_add`), which is not part of this repository.  The
spec (§4.2, §6, §9) delegates the union-like sum to that library over the
shared universe; a standard pointwise fuzzy union (maximum) is used here.
No claim settled in this file depends on its pointwise values. -/
def fuzzy_add (u1 : List ℚ) (a : List ℚ) (u2 : List ℚ) (b : List ℚ) : List ℚ :=
  let _ := u1
  let _ := u2
  List.zipWith max a b

/-- Modelled from the spec: the external fuzzy-algebra library's `fuzzy_and`
combinator (`skfuzzy.fuzzy_and`), which is not part of this repository; the
spec (§4.2) describes it as the pointwise-minimum fuzzy AND over the shared
universe.  No claim settled in this file depends on its pointwise values. -/
def fuzzy_and (u1 : List ℚ) (a : List ℚ) (u2 : List ℚ) (b : List ℚ) : List ℚ :=
  let _ := u1
  let _ := u2
  List.zipWith min a b

/-- The shared control flow of `events_sum` and `events_intersection` (the
spec's `CombineEvents`): reject an empty index list, keep the indices
passing the bounds test `idx < len(events)`, look the survivors up (Python
indexing), return a single selected event unchanged, and otherwise fold the
combinator over the selection from the left.  An empty selection fails at
`selected_events[0]` with `IndexError`, exactly as the source does. -/
def combine_events (op : List ℚ → List ℚ → List ℚ)
    (c : FuzzyProbabilitiesCalculator) (events_indices : List Int) :
    CalcResult (List ℚ) :=
  if events_indices.isEmpty then .err .emptyIndexList
  else
    match selectEvents c.events
        (events_indices.filter fun i => decide (i < (c.events.length : Int))) with
    | .err er => .err er
    | .ok [] => .err .indexError
    | .ok [e] => .ok e
    | .ok (e :: rest) => .ok (rest.foldl op e)

/-- `events_sum`: combine the selected events with the library's
`fuzzy_add` over the shared universe. -/
def events_sum (c : FuzzyProbabilitiesCalculator) (events_indices : List Int) :
    CalcResult (List ℚ) :=
  combine_events (fun result ev => fuzzy_add c.univ result c.univ ev) c events_indices

/-- `events_intersection`: combine the selected events with the library's
`fuzzy_and` over the shared universe. -/
def events_intersection (c : FuzzyProbabilitiesCalculator) (events_indices : List Int) :
    CalcResult (List ℚ) :=
  combine_events (fun result ev => fuzzy_and c.univ result c.univ ev) c events_indices

/-- The public operations of the engine, as one step alphabet (used to state
the frame property). -/
inductive EngineOp where
  | probabilityOp (e : List ℚ)
  | fuzzyProbabilityOp (e : List ℚ)
  | bernoulliOp (e : List ℚ) (s f : Nat)
  | eventsSumOp (idxs : List Int)
  | eventsIntersectionOp (idxs : List Int)
  | registerEventOp (m : List ℚ)

/-- Observable output of one engine step. -/
inductive OpOutput where
  | num (q : ℚ)
  | numErr
  | cuts (p : List ℚ × List ℚ)
  | vec (v : List ℚ)
  | vecErr (e : CalcError)
  | index (i : Nat)

/-- One call to the engine: the post-state paired with the observable
output.  Every branch performs exactly the state updates the source method
performs (only `add_event` assigns to the state). -/
def step (c : FuzzyProbabilitiesCalculator) :
    EngineOp → FuzzyProbabilitiesCalculator × OpOutput
  | .probabilityOp e =>
    (c, match probability c e with | some q => .num q | none => .numErr)
  | .fuzzyProbabilityOp e => (c, .cuts (fuzzy_probability c e))
  | .bernoulliOp e s f =>
    (c, match bernoulli c e s f with | some q => .num q | none => .numErr)
  | .eventsSumOp idxs =>
    (c, match events_sum c idxs with | .ok v => .vec v | .err er => .vecErr er)
  | .eventsIntersectionOp idxs =>
    (c, match events_intersection c idxs with | .ok v => .vec v | .err er => .vecErr er)
  | .registerEventOp m =>
    let r := add_event c m
    (r.1, .index r.2)

/-! ### Helper lemmas -/

theorem normalized_event_length (c : FuzzyProbabilitiesCalculator) (e : List ℚ) :
    (normalized_event c e).length = c.univ.length := by
  simp only [normalized_event]
  split
  · simp only [List.length_append, List.length_replicate]
    omega
  · split
    · simp only [List.length_take]
      omega
    · omega

theorem normalized_event_nonneg (c : FuzzyProbabilitiesCalculator) (e : List ℚ)
    (h : ∀ x ∈ e, 0 ≤ x) : ∀ x ∈ normalized_event c e, 0 ≤ x := by
  intro x hx
  simp only [normalized_event] at hx
  split at hx
  · rcases List.mem_append.mp hx with hc | hc
    · exact h x hc
    · rw [List.eq_of_mem_replicate hc]
  · split at hx
    · exact h x ((List.take_sublist _ _).subset hx)
    · exact h x hx

theorem mem_npUnique (l : List ℚ) (a : ℚ) : a ∈ npUnique l ↔ a ∈ l := by
  unfold npUnique
  rw [List.mem_insertionSort, List.mem_dedup]

theorem npUnique_sorted_lt (l : List ℚ) : (npUnique l).Sorted (· < ·) := by
  refine (List.sorted_insertionSort (· ≤ ·) l.dedup).lt_of_le ?_
  exact (List.perm_insertionSort (· ≤ ·) l.dedup).nodup_iff.mpr (List.nodup_dedup l)

theorem dropWhile_eq_self_of_forall {α : Type} (p : α → Bool) (l : List α)
    (h : ∀ x ∈ l, p x = false) : l.dropWhile p = l := by
  cases l with
  | nil => rfl
  | cons a l =>
    rw [List.dropWhile_cons, h a (List.mem_cons_self a l)]
    simp

theorem trimZeros_sublist (l : List ℚ) : (trimZeros l).Sublist l := by
  unfold trimZeros
  have h1 : (l.dropWhile fun x => decide (x = 0)).Sublist l := List.dropWhile_sublist _
  have h2 : ((l.dropWhile fun x => decide (x = 0)).reverse.dropWhile
      fun x => decide (x = 0)).Sublist (l.dropWhile fun x => decide (x = 0)).reverse :=
    List.dropWhile_sublist _
  have h3 := h2.reverse
  rw [List.reverse_reverse] at h3
  exact h3.trans h1

theorem trimZeros_of_sorted_nonneg (l : List ℚ) (hs : l.Sorted (· ≤ ·))
    (hn : ∀ x ∈ l, 0 ≤ x) :
    trimZeros l = l.filter fun x => decide (x ≠ 0) := by
  induction l with
  | nil => rfl
  | cons a l ih =>
    rcases List.sorted_cons.mp hs with ⟨hal, hl⟩
    by_cases ha : a = 0
    · subst ha
      have h1 : trimZeros (0 :: l) = trimZeros l := by
        unfold trimZeros
        rw [List.dropWhile_cons]
        simp
      rw [h1, ih hl fun x hx => hn x (List.mem_cons_of_mem _ hx)]
      simp
    · have hpos : ∀ x ∈ a :: l, x ≠ 0 := by
        intro x hx
        rcases List.mem_cons.mp hx with rfl | hx
        · exact ha
        · have h0a : 0 < a := lt_of_le_of_ne (hn a (List.mem_cons_self a l)) (Ne.symm ha)
          exact ne_of_gt (lt_of_lt_of_le h0a (hal x hx))
      have hfalse : ∀ x ∈ a :: l, (fun x => decide (x = 0)) x = false := by
        intro x hx
        simpa using hpos x hx
      have h1 : trimZeros (a :: l) = a :: l := by
        unfold trimZeros
        rw [dropWhile_eq_self_of_forall _ _ hfalse,
          dropWhile_eq_self_of_forall _ _ (fun x hx => hfalse x (List.mem_reverse.mp hx)),
          List.reverse_reverse]
      rw [h1, List.filter_eq_self.mpr (fun x hx => by simpa using hpos x hx)]

theorem getD_nonneg (d : List ℚ) (hd : ∀ x ∈ d, 0 ≤ x) (i : ℕ) : 0 ≤ d.getD i 0 := by
  by_cases h : i < d.length
  · rw [List.getD_eq_getElem d 0 h]
    exact hd _ (List.getElem_mem h)
  · rw [List.getD_eq_default d 0 (le_of_not_lt h)]

theorem sum_filter_le_of_imp (l : List ℕ) (p q : ℕ → Bool) (f : ℕ → ℚ)
    (hf : ∀ i ∈ l, 0 ≤ f i) (hpq : ∀ i, q i = true → p i = true) :
    ((l.filter q).map f).sum ≤ ((l.filter p).map f).sum := by
  induction l with
  | nil => simp
  | cons a l ih =>
    have hf' : ∀ i ∈ l, 0 ≤ f i := fun i hi => hf i (List.mem_cons_of_mem _ hi)
    rw [List.filter_cons, List.filter_cons]
    by_cases hq : q a = true
    · rw [hq, hpq a hq]
      simpa using add_le_add_left (ih hf') (f a)
    · rw [Bool.of_not_eq_true hq]
      by_cases hp : p a = true
      · rw [hp]
        simp only [List.map_cons, List.sum_cons]
        calc ((l.filter q).map f).sum ≤ ((l.filter p).map f).sum := ih hf'
          _ ≤ f a + ((l.filter p).map f).sum :=
            le_add_of_nonneg_left (hf a (List.mem_cons_self a l))
      · rw [Bool.of_not_eq_true hp]
        exact ih hf'

theorem cutProb_anti (d m : List ℚ) (hd : ∀ x ∈ d, 0 ≤ x) (a b : ℚ) (hab : a ≤ b) :
    cutProb d m b ≤ cutProb d m a := by
  unfold cutProb
  refine sum_filter_le_of_imp _ _ _ _ (fun i _ => getD_nonneg d hd i) ?_
  intro i hi
  have hb : b ≤ m.getD i 0 := of_decide_eq_true hi
  exact decide_eq_true (le_trans hab hb)

theorem sum_filter_range_eq (n : ℕ) (p : ℕ → Prop) [DecidablePred p] (f : ℕ → ℚ) :
    (((List.range n).filter fun i => decide (p i)).map f).sum
      = ∑ i ∈ Finset.range n, if p i then f i else 0 := by
  induction n with
  | zero => rfl
  | succ n ih =>
    rw [List.range_succ, List.filter_append, List.map_append, List.sum_append,
      Finset.sum_range_succ, ih]
    by_cases hp : p n
    · simp [hp]
    · simp [hp]

theorem dotList_eq_sum (a b : List ℚ) (h : a.length = b.length) :
    dotList a b = ∑ i ∈ Finset.range a.length, a.getD i 0 * b.getD i 0 := by
  induction a generalizing b with
  | nil => simp [dotList]
  | cons x xs ih =>
    cases b with
    | nil => simp at h
    | cons y ys =>
      simp only [List.length_cons] at h ⊢
      rw [Finset.sum_range_succ']
      simp only [List.getD_cons_succ, List.getD_cons_zero]
      have := ih ys (Nat.succ_injective h)
      simp only [dotList, List.zipWith_cons_cons, List.sum_cons] at this ⊢
      rw [this]
      ring

theorem dotList_add_compl (a b : List ℚ) (h : a.length = b.length) :
    dotList a b + dotList (a.map fun x => 1 - x) b = b.sum := by
  induction a generalizing b with
  | nil =>
    cases b with
    | nil => simp [dotList]
    | cons y ys => simp at h
  | cons x xs ih =>
    cases b with
    | nil => simp at h
    | cons y ys =>
      simp only [List.length_cons] at h
      simp only [dotList, List.map_cons, List.zipWith_cons_cons, List.sum_cons] at ih ⊢
      have := ih ys (Nat.succ_injective h)
      linarith

theorem sum_map_div (l : List ℚ) (s : ℚ) : (l.map fun x => x / s).sum = l.sum / s := by
  induction l with
  | nil => simp
  | cons x xs ih => rw [List.map_cons, List.sum_cons, List.sum_cons, ih, add_div]

theorem sum_ne_zero_of_valid (p : List ℚ) (h : probabilities_valid p = true) :
    p.sum ≠ 0 := by
  intro h0
  have hc : isClose (0 : ℚ) 0 = true := by
    unfold isClose pyAbs
    norm_num
  unfold probabilities_valid at h
  rw [h0, hc] at h
  simp at h

/-! ### Concrete engines used in the closed instantiations -/

/-- A three-point engine with distribution `[3/10, 2/5, 3/10]` (sums to 1)
and no registered events. -/
def calcA : FuzzyProbabilitiesCalculator :=
  ⟨[0, 1, 2], [3 / 10, 2 / 5, 3 / 10], []⟩

/-- The same engine with two registered events. -/
def calcB : FuzzyProbabilitiesCalculator :=
  ⟨[0, 1, 2], [3 / 10, 2 / 5, 3 / 10], [[1, 0, 0], [0, 1, 0]]⟩

/-! ### Claims -/

attribute [local semireducible] Rat.add Rat.mul Rat.inv Rat.sub

/-- C1: for an event whose length equals the universe length, `probability`
returns exactly the dot product of the raw event vector with the stored
distribution. -/
theorem probability_raw_dot (c : FuzzyProbabilitiesCalculator) (event : List ℚ)
    (hup : c.univ.length = c.probabilities.length)
    (hlen : event.length = c.univ.length) :
    probability c event
      = some (∑ i ∈ Finset.range c.univ.length,
          event.getD i 0 * c.probabilities.getD i 0) := by
  have h : event.length = c.probabilities.length := hlen.trans hup
  simp only [probability]
  rw [if_pos h, dotList_eq_sum event _ h, hlen]

/-- Witness for C1 at a concrete engine and event. -/
theorem probability_raw_dot_witness :
    probability calcA [1, 0, 1]
      = some (∑ i ∈ Finset.range calcA.univ.length,
          ([1, 0, 1] : List ℚ).getD i 0 * calcA.probabilities.getD i 0) :=
  probability_raw_dot calcA [1, 0, 1] rfl rfl

/-- C2 (code-bug evidence): `probability` length-normalizes its argument but
then dot-multiplies the RAW argument, so an event shorter than the universe
makes the call fail with a length error even though the computed normalized
event would have succeeded. -/
theorem probability_length_mismatch_bug :
    probability calcA [1] = none
      ∧ probability calcA (normalized_event calcA [1]) = some (3 / 10)
      ∧ bernoulli calcA [1] 2 1 = some (189 / 1000)
      ∧ (fuzzy_probability calcA [1]).2 = [1]
      ∧ (add_event calcA [1]).1.events = [[1, 0, 0]] := by
  decide

/-- C5: `bernoulli` succeeds on an index-aligned engine and returns
`C(s+f, s) * p^s * q^f` where `p` is the probability of the
length-normalized event and `q` the probability of its pointwise fuzzy
complement. -/
theorem bernoulli_binomial (c : FuzzyProbabilitiesCalculator) (event : List ℚ)
    (success failure : Nat)
    (hup : c.univ.length = c.probabilities.length) :
    probability c (normalized_event c event)
        = some (dotList (normalized_event c event) c.probabilities)
      ∧ probability c (fuzzy_not (normalized_event c event))
        = some (dotList (fuzzy_not (normalized_event c event)) c.probabilities)
      ∧ bernoulli c event success failure
        = some ((Nat.choose (success + failure) success : ℚ)
            * dotList (normalized_event c event) c.probabilities ^ success
            * dotList (fuzzy_not (normalized_event c event)) c.probabilities ^ failure) := by
  have hn : (normalized_event c event).length = c.probabilities.length :=
    (normalized_event_length c event).trans hup
  have h1 : probability c (normalized_event c event)
      = some (dotList (normalized_event c event) c.probabilities) := by
    simp only [probability]
    rw [if_pos hn]
  have h2 : probability c (fuzzy_not (normalized_event c event))
      = some (dotList (fuzzy_not (normalized_event c event)) c.probabilities) := by
    simp only [probability]
    rw [if_pos (by simpa [fuzzy_not] using hn)]
  refine ⟨h1, h2, ?_⟩
  simp only [bernoulli]
  rw [h1, h2]

/-- Witness for C5 at a concrete engine, event and counts. -/
theorem bernoulli_binomial_witness :
    probability calcA (normalized_event calcA [1, 1])
        = some (dotList (normalized_event calcA [1, 1]) calcA.probabilities)
      ∧ probability calcA (fuzzy_not (normalized_event calcA [1, 1]))
        = some (dotList (fuzzy_not (normalized_event calcA [1, 1])) calcA.probabilities)
      ∧ bernoulli calcA [1, 1] 2 1
        = some ((Nat.choose (2 + 1) 2 : ℚ)
            * dotList (normalized_event calcA [1, 1]) calcA.probabilities ^ 2
            * dotList (fuzzy_not (normalized_event calcA [1, 1])) calcA.probabilities ^ 1) :=
  bernoulli_binomial calcA [1, 1] 2 1 rfl

/-- C6: on a diverse universe and a distribution that is valid but not
normalized, construction fails with `UnnormalizedDistribution` when the
`normalize` flag is false, succeeds with the element-wise division by the
sum when it is true, and the stored distribution then sums to 1. -/
theorem init_normalization (u p : List ℚ)
    (hu : universe_diverse u = true)
    (hv : probabilities_valid p = true)
    (hn : probabilities_normalized p = false) :
    init u p false = .err .unnormalizedDistribution
      ∧ init u p true = .ok ⟨u, p.map fun x => x / p.sum, []⟩
      ∧ (normalize_probabilities p).sum = 1 := by
  have hsum : p.sum ≠ 0 := sum_ne_zero_of_valid p hv
  refine ⟨?_, ?_, ?_⟩
  · simp [init, hu, hv, hn]
  · simp [init, hu, hv, hn, normalize_probabilities]
  · unfold normalize_probabilities
    rw [sum_map_div]
    exact div_self hsum

/-- Witness for C6: distribution summing to 6/5. -/
theorem init_normalization_witness :
    init [0, 1] [3 / 5, 3 / 5] false = .err .unnormalizedDistribution
      ∧ init [0, 1] [3 / 5, 3 / 5] true
        = .ok ⟨[0, 1], ([3 / 5, 3 / 5] : List ℚ).map fun x => x / ([3 / 5, 3 / 5] : List ℚ).sum, []⟩
      ∧ (normalize_probabilities [3 / 5, 3 / 5]).sum = 1 :=
  init_normalization [0, 1] [3 / 5, 3 / 5]
    (by norm_num [universe_diverse])
    (by norm_num [probabilities_valid, isClose, pyAbs])
    (by norm_num [probabilities_normalized, isClose, pyAbs])

/-- C10: for an event of exactly the universe length, the probability of the
event plus the probability of its pointwise complement equals the sum of the
stored distribution (hence 1 for a distribution summing to 1), with no
constraint on the membership values. -/
theorem probability_add_complement (c : FuzzyProbabilitiesCalculator) (event : List ℚ)
    (hup : c.univ.length = c.probabilities.length)
    (hlen : event.length = c.univ.length) :
    ∃ p q, probability c event = some p
      ∧ probability c (event.map fun x => 1 - x) = some q
      ∧ p + q = c.probabilities.sum
      ∧ (c.probabilities.sum = 1 → p + q = 1) := by
  have h : event.length = c.probabilities.length := hlen.trans hup
  refine ⟨dotList event c.probabilities,
    dotList (event.map fun x => 1 - x) c.probabilities, ?_, ?_, ?_, ?_⟩
  · simp only [probability]
    rw [if_pos h]
  · simp only [probability]
    rw [if_pos (by simpa using h)]
  · exact dotList_add_compl event c.probabilities h
  · intro h1
    rw [dotList_add_compl event c.probabilities h, h1]

/-- Witness for C10 at an event with membership values outside `[0, 1]`. -/
theorem probability_add_complement_witness :
    ∃ p q, probability calcA [2, -1, 1 / 2] = some p
      ∧ probability calcA (([2, -1, 1 / 2] : List ℚ).map fun x => 1 - x) = some q
      ∧ p + q = calcA.probabilities.sum
      ∧ (calcA.probabilities.sum = 1 → p + q = 1) :=
  probability_add_complement calcA [2, -1, 1 / 2] rfl rfl

/-- The spec's alpha-cut probability: the sum of the distribution values at
all universe indices whose membership in the normalized event is at least
`a` (stated independently of the loop in the source, for comparison with
it). -/
def specCutProb (d m : List ℚ) (a : ℚ) : ℚ :=
  ∑ i ∈ (Finset.range m.length).filter (fun i => a ≤ m.getD i 0), d.getD i 0

theorem cutProb_eq_spec (d m : List ℚ) (a : ℚ) : cutProb d m a = specCutProb d m a := by
  unfold cutProb specCutProb
  rw [Finset.sum_filter]
  exact sum_filter_range_eq _ _ _

/-- C3 (counterexample): `np.trim_zeros` removes zeros only at the two ends
of the sorted distinct membership values, so for the event `[-1, 0, 1]` the
returned alpha levels contain `0` — they are not the distinct non-zero
membership values of the normalized event. -/
theorem fuzzy_probability_zero_alpha_cex :
    (fuzzy_probability calcA [-1, 0, 1]).2 = [-1, 0, 1]
      ∧ (0 : ℚ) ∈ (fuzzy_probability calcA [-1, 0, 1]).2 := by
  decide

/-- C3 (amended): for every event with non-negative membership values, on an
index-aligned engine, the alpha levels are exactly the distinct non-zero
membership values of the length-normalized event in ascending order, each
paired with the distribution mass of its alpha cut, and an all-zero event
yields two empty sequences. -/
theorem fuzzy_probability_alpha_cut (c : FuzzyProbabilitiesCalculator) (event : List ℚ)
    (_hup : c.univ.length = c.probabilities.length)
    (hnn : ∀ x ∈ event, 0 ≤ x) :
    (∀ a, a ∈ (fuzzy_probability c event).2
        ↔ (a ∈ normalized_event c event ∧ a ≠ 0))
      ∧ (fuzzy_probability c event).2.Sorted (· < ·)
      ∧ (fuzzy_probability c event).1
        = ((fuzzy_probability c event).2).map
            (specCutProb c.probabilities (normalized_event c event))
      ∧ ((∀ x ∈ normalized_event c event, x = 0)
          → fuzzy_probability c event = ([], [])) := by
  have hm : ∀ x ∈ normalized_event c event, 0 ≤ x :=
    normalized_event_nonneg c event hnn
  have hsle : (npUnique (normalized_event c event)).Sorted (· ≤ ·) :=
    (npUnique_sorted_lt _).imp le_of_lt
  have hnnU : ∀ x ∈ npUnique (normalized_event c event), 0 ≤ x :=
    fun x hx => hm x ((mem_npUnique _ x).mp hx)
  have htrim : trimZeros (npUnique (normalized_event c event))
      = (npUnique (normalized_event c event)).filter fun x => decide (x ≠ 0) :=
    trimZeros_of_sorted_nonneg _ hsle hnnU
  have halpha : (fuzzy_probability c event).2
      = trimZeros (npUnique (normalized_event c event)) := rfl
  refine ⟨?_, ?_, ?_, ?_⟩
  · intro a
    rw [halpha, htrim, List.mem_filter]
    simp [mem_npUnique]
  · rw [halpha]
    exact (npUnique_sorted_lt _).sublist (trimZeros_sublist _)
  · have hfun : cutProb c.probabilities (normalized_event c event)
        = specCutProb c.probabilities (normalized_event c event) :=
      funext fun a => cutProb_eq_spec _ _ a
    show (trimZeros (npUnique (normalized_event c event))).map
        (cutProb c.probabilities (normalized_event c event))
      = (trimZeros (npUnique (normalized_event c event))).map
        (specCutProb c.probabilities (normalized_event c event))
    rw [hfun]
  · intro hz
    have hempty : trimZeros (npUnique (normalized_event c event)) = [] := by
      rw [htrim, List.filter_eq_nil_iff]
      intro a ha
      simp [hz a ((mem_npUnique _ a).mp ha)]
    show ((trimZeros (npUnique (normalized_event c event))).map
        (cutProb c.probabilities (normalized_event c event)),
        trimZeros (npUnique (normalized_event c event))) = ([], [])
    rw [hempty]
    rfl

/-- Witness for the amended C3 at a concrete non-negative event. -/
theorem fuzzy_probability_alpha_cut_witness :
    (∀ a, a ∈ (fuzzy_probability calcA [1 / 2, 1, 1 / 2]).2
        ↔ (a ∈ normalized_event calcA [1 / 2, 1, 1 / 2] ∧ a ≠ 0))
      ∧ (fuzzy_probability calcA [1 / 2, 1, 1 / 2]).2.Sorted (· < ·)
      ∧ (fuzzy_probability calcA [1 / 2, 1, 1 / 2]).1
        = ((fuzzy_probability calcA [1 / 2, 1, 1 / 2]).2).map
            (specCutProb calcA.probabilities (normalized_event calcA [1 / 2, 1, 1 / 2]))
      ∧ ((∀ x ∈ normalized_event calcA [1 / 2, 1, 1 / 2], x = 0)
          → fuzzy_probability calcA [1 / 2, 1, 1 / 2] = ([], [])) :=
  fuzzy_probability_alpha_cut calcA [1 / 2, 1, 1 / 2] rfl (by decide)

/-- C4: the alpha levels of `fuzzy_probability` are strictly ascending and
the paired probabilities are monotone non-increasing along them, for any
engine whose stored distribution is non-negative (which construction
guarantees). -/
theorem fuzzy_probability_monotone (c : FuzzyProbabilitiesCalculator) (event : List ℚ)
    (hd : ∀ x ∈ c.probabilities, 0 ≤ x) :
    (fuzzy_probability c event).2.Sorted (· < ·)
      ∧ List.Chain' (fun p q => q ≤ p) (fuzzy_probability c event).1 := by
  have halpha : (fuzzy_probability c event).2
      = trimZeros (npUnique (normalized_event c event)) := rfl
  have hsorted : (trimZeros (npUnique (normalized_event c event))).Sorted (· < ·) :=
    (npUnique_sorted_lt _).sublist (trimZeros_sublist _)
  constructor
  · rw [halpha]
    exact hsorted
  · have h1 : (fuzzy_probability c event).1
        = (trimZeros (npUnique (normalized_event c event))).map
          (cutProb c.probabilities (normalized_event c event)) := rfl
    rw [h1, List.chain'_map]
    refine List.Chain'.imp ?_ (List.Pairwise.chain' hsorted)
    intro a b hab
    exact cutProb_anti _ _ hd a b (le_of_lt hab)

/-- Witness for C4 at a concrete engine and event. -/
theorem fuzzy_probability_monotone_witness :
    (fuzzy_probability calcA [1 / 2, 1, 1 / 2]).2.Sorted (· < ·)
      ∧ List.Chain' (fun p q => q ≤ p) (fuzzy_probability calcA [1 / 2, 1, 1 / 2]).1 :=
  fuzzy_probability_monotone calcA [1 / 2, 1, 1 / 2] (by decide)

/-! ### Index handling of the combination operations -/

theorem pyGet_isSome_of_nonneg_lt {α : Type} (l : List α) (i : Int) (h0 : 0 ≤ i)
    (h : i < (l.length : Int)) : ∃ e, pyGet l i = some e := by
  simp only [pyGet]
  rw [if_neg (not_lt.mpr h0), if_pos h0]
  have hlt : i.toNat < l.length := by omega
  exact ⟨l[i.toNat], List.getElem?_eq_getElem hlt⟩

theorem pyGet_neg_in {α : Type} (l : List α) (i : Int) (d : α)
    (h1 : -(l.length : Int) ≤ i) (h2 : i ≤ -1) :
    pyGet l i = some (l.getD ((l.length : Int) + i).toNat d) := by
  simp only [pyGet]
  rw [if_pos (show i < 0 by omega), if_pos (show (0 : Int) ≤ i + l.length by omega)]
  have hlt : (i + (l.length : Int)).toNat < l.length := by omega
  rw [List.getElem?_eq_getElem hlt,
    List.getD_eq_getElem l d (show ((l.length : Int) + i).toNat < l.length by omega)]
  have hAB : (i + (l.length : Int)).toNat = ((l.length : Int) + i).toNat := by omega
  simp [hAB]

theorem pyGet_neg_out {α : Type} (l : List α) (i : Int)
    (h : i < -(l.length : Int)) : pyGet l i = none := by
  simp only [pyGet]
  rw [if_pos (show i < 0 by omega), if_neg (show ¬ (0 : Int) ≤ i + l.length by omega)]

theorem selectEvents_ok (events : List (List ℚ)) (l : List Int)
    (h : ∀ i ∈ l, ∃ e, pyGet events i = some e) :
    ∃ vs, selectEvents events l = .ok vs ∧ vs.length = l.length := by
  induction l with
  | nil => exact ⟨[], rfl, rfl⟩
  | cons i rest ih =>
    obtain ⟨e, he⟩ := h i (List.mem_cons_self i rest)
    obtain ⟨vs, hvs, hlen⟩ := ih fun j hj => h j (List.mem_cons_of_mem _ hj)
    refine ⟨e :: vs, ?_, by simp [hlen]⟩
    simp only [selectEvents]
    rw [he, hvs]

theorem combine_events_empty (op : List ℚ → List ℚ → List ℚ)
    (c : FuzzyProbabilitiesCalculator) :
    combine_events op c [] = .err .emptyIndexList := rfl

theorem combine_events_all_oob (op : List ℚ → List ℚ → List ℚ)
    (c : FuzzyProbabilitiesCalculator) (idxs : List Int) (hne : idxs ≠ [])
    (hoob : ∀ i ∈ idxs, (c.events.length : Int) ≤ i) :
    combine_events op c idxs = .err .indexError := by
  have hfil : idxs.filter (fun i => decide (i < (c.events.length : Int))) = [] :=
    List.filter_eq_nil_iff.mpr fun a ha => by simpa using not_lt.mpr (hoob a ha)
  unfold combine_events
  rw [if_neg (by simpa [List.isEmpty_iff] using hne), hfil]
  rfl

theorem combine_events_ok_of_mem (op : List ℚ → List ℚ → List ℚ)
    (c : FuzzyProbabilitiesCalculator) (idxs : List Int)
    (hnn : ∀ i ∈ idxs, 0 ≤ i)
    (hsome : ∃ i ∈ idxs, i < (c.events.length : Int)) :
    ∃ v, combine_events op c idxs = .ok v := by
  obtain ⟨i0, hi0m, hi0⟩ := hsome
  have hne : idxs ≠ [] := by
    rintro rfl
    exact absurd hi0m (List.not_mem_nil i0)
  have hkept : ∀ i ∈ idxs.filter (fun i => decide (i < (c.events.length : Int))),
      ∃ e, pyGet c.events i = some e := by
    intro i hi
    have him := List.mem_of_mem_filter hi
    have hlt : i < (c.events.length : Int) := by
      simpa using (List.mem_filter.mp hi).2
    exact pyGet_isSome_of_nonneg_lt _ i (hnn i him) hlt
  obtain ⟨vs, hvs, hlen⟩ := selectEvents_ok _ _ hkept
  have hmem : i0 ∈ idxs.filter (fun i => decide (i < (c.events.length : Int))) :=
    List.mem_filter.mpr ⟨hi0m, by simpa using hi0⟩
  have hvs_ne : vs ≠ [] := by
    intro hv
    rw [hv] at hlen
    have : (idxs.filter (fun i => decide (i < (c.events.length : Int)))).length ≠ 0 :=
      List.length_pos.mpr (List.ne_nil_of_mem hmem) |>.ne'
    exact this hlen.symm
  rcases vs with _ | ⟨e, rest⟩
  · exact absurd rfl hvs_ne
  · rcases rest with _ | ⟨e2, rest2⟩
    · refine ⟨e, ?_⟩
      unfold combine_events
      rw [if_neg (by simpa [List.isEmpty_iff] using hne), hvs]
    · refine ⟨(e2 :: rest2).foldl op e, ?_⟩
      unfold combine_events
      rw [if_neg (by simpa [List.isEmpty_iff] using hne), hvs]

theorem combine_events_single_neg (op : List ℚ → List ℚ → List ℚ)
    (c : FuzzyProbabilitiesCalculator) (i : Int) (hneg : i < 0) :
    combine_events op c [i]
      = match pyGet c.events i with
        | some e => .ok e
        | none => .err .indexError := by
  have hfil : [i].filter (fun j => decide (j < (c.events.length : Int))) = [i] := by
    have : i < (c.events.length : Int) := by omega
    simp [this]
  unfold combine_events
  rw [if_neg (by simp), hfil]
  cases hp : pyGet c.events i with
  | none => simp [selectEvents, hp]
  | some e => simp [selectEvents, hp]

/-- C7 (counterexample): with one out-of-range index and no valid index, the
combination operations do fail because of the out-of-range index — the empty
selection makes `selected_events[0]` raise `IndexError`. -/
theorem events_combine_oob_cex :
    events_sum calcB [3] = .err .indexError
      ∧ events_intersection calcB [3] = .err .indexError := by
  decide

/-- C7 (amended): an empty index list fails with `EmptyIndexList`;
non-negative indices at or past the registered-event count are silently
skipped, and the call completes without an index error as long as at least
one index is within bounds; when every index is out of range the call fails
with an index error. -/
theorem events_combine_oob_policy (c : FuzzyProbabilitiesCalculator) (idxs : List Int) :
    (idxs = [] →
        events_sum c idxs = .err .emptyIndexList
          ∧ events_intersection c idxs = .err .emptyIndexList)
      ∧ (idxs ≠ [] → (∀ i ∈ idxs, 0 ≤ i) →
          (((∃ i ∈ idxs, i < (c.events.length : Int)) →
              (∃ v, events_sum c idxs = .ok v)
                ∧ ∃ v, events_intersection c idxs = .ok v)
            ∧ ((∀ i ∈ idxs, (c.events.length : Int) ≤ i) →
              events_sum c idxs = .err .indexError
                ∧ events_intersection c idxs = .err .indexError))) := by
  constructor
  · rintro rfl
    exact ⟨combine_events_empty _ c, combine_events_empty _ c⟩
  · intro hne hnn
    constructor
    · intro hsome
      exact ⟨combine_events_ok_of_mem _ c idxs hnn hsome,
        combine_events_ok_of_mem _ c idxs hnn hsome⟩
    · intro hoob
      exact ⟨combine_events_all_oob _ c idxs hne hoob,
        combine_events_all_oob _ c idxs hne hoob⟩

/-- Witness for the amended C7: the three regimes at concrete inputs. -/
theorem events_combine_oob_policy_witness :
    (events_sum calcB [] = .err .emptyIndexList
        ∧ events_intersection calcB [] = .err .emptyIndexList)
      ∧ ((∃ v, events_sum calcB [0, 7] = .ok v)
        ∧ ∃ v, events_intersection calcB [0, 7] = .ok v)
      ∧ (events_sum calcB [7] = .err .indexError
        ∧ events_intersection calcB [7] = .err .indexError) :=
  ⟨(events_combine_oob_policy calcB []).1 rfl,
    ((events_combine_oob_policy calcB [0, 7]).2 (by decide) (by decide)).1 (by decide),
    ((events_combine_oob_policy calcB [7]).2 (by decide) (by decide)).2 (by decide)⟩

/-- C9: a negative index within `[-k, -1]` passes the bounds filter (which
only tests `idx < k`) and selects the `(k+i)`-th registered event by
end-relative indexing, while an index below `-k` makes the call fail with an
index error instead of being skipped. -/
theorem events_negative_index (c : FuzzyProbabilitiesCalculator) (i : Int) :
    ((-(c.events.length : Int) ≤ i → i ≤ -1 →
        events_sum c [i]
            = .ok (c.events.getD ((c.events.length : Int) + i).toNat [])
          ∧ events_intersection c [i]
            = .ok (c.events.getD ((c.events.length : Int) + i).toNat []))
      ∧ (i < -(c.events.length : Int) →
          events_sum c [i] = .err .indexError
            ∧ events_intersection c [i] = .err .indexError)) := by
  constructor
  · intro h1 h2
    have hp := pyGet_neg_in c.events i [] h1 h2
    constructor
    · rw [events_sum, combine_events_single_neg _ c i (by omega), hp]
    · rw [events_intersection, combine_events_single_neg _ c i (by omega), hp]
  · intro h
    have hp := pyGet_neg_out c.events i h
    have hneg : i < 0 := by omega
    constructor
    · rw [events_sum, combine_events_single_neg _ c i hneg, hp]
    · rw [events_intersection, combine_events_single_neg _ c i hneg, hp]

/-- Witness for C9: end-relative selection at `-1` and an index error at
`-5` on an engine with two registered events. -/
theorem events_negative_index_witness :
    (events_sum calcB [-1]
        = .ok (calcB.events.getD ((calcB.events.length : Int) + -1).toNat [])
      ∧ events_intersection calcB [-1]
        = .ok (calcB.events.getD ((calcB.events.length : Int) + -1).toNat []))
      ∧ (events_sum calcB [-5] = .err .indexError
        ∧ events_intersection calcB [-5] = .err .indexError) :=
  ⟨(events_negative_index calcB (-1)).1 (by decide) (by decide),
    (events_negative_index calcB (-5)).2 (by decide)⟩

/-- C8: no read operation changes any component of the engine state, whether
it succeeds or fails; registering an event only appends its normalized form
to the event collection, leaving universe and distribution unchanged. -/
theorem step_frame (c : FuzzyProbabilitiesCalculator) (op : EngineOp) :
    (step c op).1.univ = c.univ
      ∧ (step c op).1.probabilities = c.probabilities
      ∧ (step c op).1
        = (match op with
          | .registerEventOp m =>
            { c with events := c.events ++ [normalized_event c m] }
          | _ => c) := by
  cases op <;> exact ⟨rfl, rfl, rfl⟩

end Fuzzy

